import Mathlib

/-!
Verification of the ASN Bank CSV importer (`beancountASN/asnbank_csv.py`).

The Python source is shallowly embedded below.  Stateful, interactive code
(`extract`, `map_payee`) is modelled by explicit state passing: operator
input (`input()`) becomes a list of pending input lines that is consumed
one line per prompt, the `skip_all` instance flag and the `new_payees`
dict are threaded through, and file-system effects (cache load, backup,
rewrite) are recorded in the result.  Python exceptions that the code does
not catch (date/decimal parse errors, `IndexError`, mismatched currencies
in `amount.add`) make the embedded `extract` return `none`.

Modelling conventions:
* CSV field values are `String`s, as in the Python `csv.DictReader` rows.
* `decimal` numbers are exact decimals (`Dec`: integer mantissa and
  decimal scale, the representation `decimal.Decimal` itself uses) via an
  explicit parser `D` (sign, digits, optional fractional part, commas
  stripped — the subset of `beancount.core.number.D` exercised here; no
  exponents).
* dates are proleptic-Gregorian ordinals (`ℕ`, as in Python
  `date.toordinal`), so `timedelta(days=1)` is `+ 1`.
* regex character classes `\s`, `\d` and `.` are modelled over their ASCII
  meaning (` \t\n\r\f\v`, `0-9`, any char except `'\n'`); all string data
  in the claims is ASCII.
-/

/-- ASCII whitespace, the characters matched by the regex class `\s`
(and stripped by `str.strip` / split on by `str.split`). -/
def pyIsWs (c : Char) : Bool :=
  c = ' ' || c = '\t' || c = '\n' || c = '\r' || c = '\x0c' || c = '\x0b'

/-- ASCII decimal digit, the regex class `\d`. -/
def pyIsDigit (c : Char) : Bool := '0' ≤ c && c ≤ '9'

/-- Python `str.split()` with no separator: split on runs of whitespace,
discarding empty pieces (leading/trailing whitespace produces none). -/
def pySplitWs : List Char → List (List Char)
  | [] => []
  | c :: cs =>
    if pyIsWs c then pySplitWs cs
    else
      match pySplitWs cs with
      | [] => [[c]]
      | w :: ws =>
        match cs with
        | [] => [[c]]
        | c2 :: _ => if pyIsWs c2 then [c] :: w :: ws else (c :: w) :: ws

/-- Python `str.capitalize()`: first character upper-cased, the rest lower-cased. -/
def pyCapitalize : List Char → List Char
  | [] => []
  | c :: cs => c.toUpper :: cs.map Char.toLower

/-- Python `string.capwords(s)`: `' '.join(x.capitalize() for x in s.split())`. -/
def capwords (s : List Char) : List Char :=
  List.intercalate [' '] ((pySplitWs s).map pyCapitalize)

/-- Python `str.strip()`: drop leading and trailing whitespace. -/
def pyStrip (s : List Char) : List Char :=
  (((s.dropWhile pyIsWs).reverse).dropWhile pyIsWs).reverse

/-- Python `re.sub(r"\s+|:", " ", s)`: each maximal run of whitespace, and each
single `':'`, is replaced by one space (scanning left to right; a
whitespace character followed by more whitespace extends the current run). -/
def subWsColon : List Char → List Char
  | [] => []
  | [c] => if pyIsWs c || c = ':' then [' '] else [c]
  | c :: c2 :: cs =>
    if pyIsWs c then
      if pyIsWs c2 then subWsColon (c2 :: cs) else ' ' :: subWsColon (c2 :: cs)
    else if c = ':' then ' ' :: subWsColon (c2 :: cs)
    else c :: subWsColon (c2 :: cs)

/-- Python `re.match(r"^'.*'$", s)`: the whole string is a pair of apostrophes
around characters none of which is a newline (`.` does not match `'\n'`). -/
def quotedMatch (s : List Char) : Bool :=
  match s with
  | [] => false
  | c :: cs =>
    c = '\'' && match cs.reverse with
      | [] => false
      | d :: mid => d = '\'' && mid.all (fun x => x ≠ '\n')

/-- Python slice `s[1:-1]`: drop the first and last character. -/
def dropEnds (s : List Char) : List Char :=
  match s with
  | [] => []
  | _ :: cs => cs.dropLast

/-- Python `re.match(r".*>.*", s)`: some `'>'` occurs with no newline before it
(`.` does not match `'\n'`, and `re.match` anchors at the start). -/
def hasGtBeforeNl : List Char → Bool
  | [] => false
  | c :: cs => if c = '>' then true else if c = '\n' then false else hasGtBeforeNl cs

/-- Python `s.split('>', 1)[0]`: everything before the first `'>'` (the whole
string when there is none). -/
def beforeGt (s : List Char) : List Char := s.takeWhile (fun c => c ≠ '>')

/-- One CSV row (`csv.DictReader` record).  Only the fields the importer
reads are carried; the other ten positional columns are never consulted. -/
structure Row where
  txn_date : List Char
  contra_account : List Char
  payee : List Char
  account_comm : List Char
  balance_before : List Char
  txn_comm : List Char
  amount : List Char
  description : List Char
deriving Repr, DecidableEq

/-- Lines 70–77 of `extract`: capitalize the payee, unquote the
description, move the pre-`'>'` prefix of the narration into the payee
when `re.match(r"\s*", payee)` and `re.match(r".*>.*", narrate)` both
succeed (`re.match(r"\s*", payee)` matches the empty prefix, hence always
succeeds), then collapse whitespace/colons and strip both strings. -/
def normalizeRow (row : Row) : List Char × List Char :=
  let payee0 := capwords row.payee
  let narrate0 := row.description
  let narrate1 := if quotedMatch narrate0 then dropEnds narrate0 else narrate0
  let payee1 := if hasGtBeforeNl narrate1 then beforeGt narrate1 else payee0
  (pyStrip (subWsColon payee1), pyStrip (subWsColon narrate1))

/-- One row of the payee cache file (columns `RAW`, `BC`, `POSTING`),
read with `keep_default_na=False` so missing cells are empty strings. -/
structure CacheEntry where
  RAW : List Char
  BC : List Char
  POSTING : List Char
deriving Repr, DecidableEq

/-- Pandas `payee_df.loc[payee_df.RAW == key, 'BC']` followed by `.iloc[0]`:
the `BC` column of the first cache row whose `RAW` equals `key`. -/
def lookupBC (df : List CacheEntry) (key : List Char) : Option (List Char) :=
  (df.find? (fun e => e.RAW = key)).map CacheEntry.BC

/-- Pandas `payee_df.loc[payee_df.RAW == key, 'POSTING']` followed by `.iloc[0]`. -/
def lookupPosting (df : List CacheEntry) (key : List Char) : Option (List Char) :=
  (df.find? (fun e => e.RAW = key)).map CacheEntry.POSTING

/-- Python `key in new_payees` / `new_payees[key]` on the run-local dict,
represented as an insertion-ordered association list. -/
def pendingLookup (pending : List (List Char × List Char)) (key : List Char) :
    Option (List Char) :=
  (pending.find? (fun kv => kv.1 = key)).map Prod.snd

/-- Lines 126–131 of `map_payee`: the resolution key — `contra_account`
if non-empty, else the (normalized) payee if non-empty, else the raw
description. -/
def mapPayeeKey (payee : List Char) (row : Row) : List Char :=
  if row.contra_account ≠ [] then row.contra_account
  else if payee ≠ [] then payee
  else row.description

/-- Lines 170–175 of `add_post`: the key used for the secondary-posting
lookup, transcribed from `add_post`'s own copy of the selection code. -/
def addPostKey (payee : List Char) (row : Row) : List Char :=
  if row.contra_account ≠ [] then row.contra_account
  else if payee ≠ [] then payee
  else row.description

/-- Result of one `map_payee` call: the returned string, the updated
`new_payees` dict and `skip_all` flag, the unconsumed operator input, and
whether a prompt was printed (one `input()` line consumed). -/
structure MPResult where
  ret : List Char
  pending : List (List Char × List Char)
  skipAll : Bool
  inputs : List (List Char)
  prompted : Bool
deriving Repr, DecidableEq

/-- Method `ASNImporter.map_payee` (lines 121–163).  Cache hit → its `BC`;
run-local hit → memoized value; `skip_all` set → the payee unchanged;
otherwise prompt: `"S"` sets `skip_all` and skips, `"s"` skips, `"q"`
returns the abort sentinel `"\x00"`, `"="` stands for the payee itself,
anything else is taken literally; a non-sentinel answer is recorded in
`new_payees` unless the key is empty. -/
def map_payee (df : List CacheEntry) (pending : List (List Char × List Char))
    (skipAll : Bool) (inputs : List (List Char)) (payee : List Char) (row : Row) :
    MPResult :=
  let key := mapPayeeKey payee row
  match lookupBC df key with
  | some bc => ⟨bc, pending, skipAll, inputs, false⟩
  | none =>
    match pendingLookup pending key with
    | some v => ⟨v, pending, skipAll, inputs, false⟩
    | none =>
      if skipAll then ⟨payee, pending, skipAll, inputs, false⟩
      else
        let value := inputs.headD []
        let rest := inputs.tail
        let skipAll2 := if value = ['S'] then true else skipAll
        if value = ['s'] || value = ['S'] then ⟨payee, pending, skipAll2, rest, true⟩
        else if value = ['q'] then ⟨['\x00'], pending, skipAll2, rest, true⟩
        else
          let value2 := if value = ['='] then payee else value
          if key ≠ [] then ⟨value2, pending ++ [(key, value2)], skipAll2, rest, true⟩
          else ⟨value2, pending, skipAll2, rest, true⟩

/-- Numeric value of a digit string (most significant digit first). -/
def digitsVal (ds : List Char) : ℕ :=
  ds.foldl (fun a c => 10 * a + (c.toNat - '0'.toNat)) 0

/-- An exact decimal number, `decimal.Decimal`'s own representation:
the value is `num / 10 ^ scale`. -/
structure Dec where
  num : ℤ
  scale : ℕ
deriving Repr, DecidableEq

/-- Exact `Decimal` addition (note the result keeps the finer scale, as
Python's `Decimal.__add__` does). -/
def decAdd (a b : Dec) : Dec :=
  let s := max a.scale b.scale
  ⟨a.num * 10 ^ (s - a.scale) + b.num * 10 ^ (s - b.scale), s⟩

/-- Function `beancount.core.number.D`: strip commas and convert the string to an
exact decimal — optional sign, integer digits, optional `'.'` and
fraction digits, at least one digit in all (the subset of `Decimal`
syntax exercised by these CSV fields; no exponents).  Malformed input
(which makes `Decimal` raise) is `none`. -/
def D (s : List Char) : Option Dec :=
  let t := s.filter (fun c => c ≠ ',')
  let su : ℤ × List Char :=
    match t with
    | '-' :: r => (-1, r)
    | '+' :: r => (1, r)
    | r => (1, r)
  let intPart := su.2.takeWhile pyIsDigit
  let rest := su.2.dropWhile pyIsDigit
  match rest with
  | [] =>
    if intPart = [] then none
    else some ⟨su.1 * digitsVal intPart, 0⟩
  | '.' :: frac =>
    if frac.all pyIsDigit ∧ (intPart ≠ [] ∨ frac ≠ []) then
      some ⟨su.1 * (digitsVal (intPart ++ frac)), frac.length⟩
    else none
  | _ => none

/-- Gregorian leap year, as in Python `calendar`/`datetime`. -/
def isLeap (y : ℕ) : Bool := (y % 4 = 0 && y % 100 ≠ 0) || y % 400 = 0

/-- Number of days in month `m` of year `y`. -/
def monthLen (y m : ℕ) : ℕ :=
  if m = 2 then (if isLeap y then 29 else 28)
  else if m = 4 ∨ m = 6 ∨ m = 9 ∨ m = 11 then 30
  else 31

/-- Days in year `y` before the first of month `m`. -/
def daysBeforeMonth (y m : ℕ) : ℕ :=
  (List.range (m - 1)).foldl (fun a i => a + monthLen y (i + 1)) 0

/-- Python `date(y, m, d).toordinal()`: proleptic-Gregorian day number with
0001-01-01 as day 1. -/
def toOrdinal (y m d : ℕ) : ℕ :=
  365 * (y - 1) + (y - 1) / 4 - (y - 1) / 100 + (y - 1) / 400 + daysBeforeMonth y m + d

/-- Python `datetime.strptime(s, '%d-%m-%Y').date()`, as an ordinal.  `%d` and
`%m` accept one or two digits, `%Y` up to four; the triple must be a
valid calendar date, else `strptime` raises (`none`). -/
def parseDate (s : List Char) : Option ℕ :=
  match s.splitOn '-' with
  | [ds, ms, ys] =>
    if ds ≠ [] ∧ ds.length ≤ 2 ∧ ds.all pyIsDigit ∧
       ms ≠ [] ∧ ms.length ≤ 2 ∧ ms.all pyIsDigit ∧
       ys ≠ [] ∧ ys.length ≤ 4 ∧ ys.all pyIsDigit then
      let d := digitsVal ds
      let m := digitsVal ms
      let y := digitsVal ys
      if 1 ≤ y ∧ 1 ≤ m ∧ m ≤ 12 ∧ 1 ≤ d ∧ d ≤ monthLen y m then
        some (toOrdinal y m d)
      else none
    else none
  | _ => none

/-- Function `beancount.core.amount.add`: add two amounts of the same currency;
different currencies make it raise `ValueError` (`none`). -/
def amountAdd (a b : Dec × List Char) : Option (Dec × List Char) :=
  if a.2 = b.2 then some (decAdd a.1 b.1, a.2) else none

/-- One leg of a transaction (`data.Posting`); only the fields this
importer sets are carried, the rest are always `None`. -/
structure Posting where
  account : List Char
  units : Option (Dec × List Char)
deriving Repr, DecidableEq

/-- Beancount `data.Transaction` as built by the importer: metadata line number,
date ordinal, optional payee, narration and postings (`flag` is always
`FLAG_OKAY`, `tags`/`links` always empty, so they are not carried). -/
structure Transaction where
  metaIndex : ℕ
  date : ℕ
  payee : Option (List Char)
  narration : List Char
  postings : List Posting
deriving Repr, DecidableEq

/-- Beancount `data.Balance` as built by the importer (tolerance and diff are
always `None`). -/
structure Balance where
  metaIndex : ℤ
  date : ℕ
  account : List Char
  amt : Dec × List Char
deriving Repr, DecidableEq

/-- One output entry of `extract`. -/
inductive Entry where
  | txn (t : Transaction)
  | bal (b : Balance)
deriving Repr, DecidableEq

/-- Function `add_post` (lines 166–180): look up the key's `POSTING` column; when
a first match exists and its value is non-empty (truthy), append a
posting with that account and no amount. -/
def add_post (txn : Transaction) (df : List CacheEntry) (payee : List Char)
    (row : Row) : Transaction :=
  let key := addPostKey payee row
  match lookupPosting df key with
  | some p =>
    if p ≠ [] then { txn with postings := txn.postings ++ [⟨p, none⟩] } else txn
  | none => txn

/-- Lines 83–99 of `extract`: build the transaction for one row — date
from `txn_date`, payee `payee_mpd` unless falsy, narration, the primary
posting on the configured root account with the row's amount and
currency — then `add_post`.  Note that `add_post` receives the
*normalized* payee, not the resolved `payee_mpd`.  A date or decimal
parse failure raises (`none`). -/
def buildTxn (root : List Char) (df : List CacheEntry) (i : ℕ) (row : Row)
    (payee payee_mpd narrate : List Char) : Option Transaction :=
  match parseDate row.txn_date, D row.amount with
  | some dt, some q =>
    let txn : Transaction :=
      { metaIndex := i, date := dt,
        payee := if payee_mpd ≠ [] then some payee_mpd else none,
        narration := narrate,
        postings := [⟨root, some (q, row.txn_comm)⟩] }
    some (add_post txn df payee row)
  | _, _ => none

/-- The loop-carried state of `extract`'s row loop: the `new_payees`
dict, the `skip_all` flag, the remaining operator input, the entries
built so far, the Python variables `index` and `row` as they stand after
the loop, and whether the loop was left through the `"\x00"` break. -/
structure LoopSt where
  pending : List (List Char × List Char)
  skipAll : Bool
  inputs : List (List Char)
  entries : List Transaction
  index : ℤ
  lastRow : Option Row
  aborted : Bool
deriving Repr, DecidableEq

/-- The loop state after the `"\x00"` break at enumeration index `i` on
row `r`: `index -= 1`, no transaction appended. -/
def abortState (mp : MPResult) (st : LoopSt) (i : ℕ) (r : Row) : LoopSt :=
  { pending := mp.pending, skipAll := mp.skipAll, inputs := mp.inputs,
    entries := st.entries, index := (i : ℤ) - 1, lastRow := some r,
    aborted := true }

/-- The loop state after a completed iteration at enumeration index `i`
on row `r`: the built transaction appended, `index = i`, `row = r`. -/
def contState (mp : MPResult) (st : LoopSt) (i : ℕ) (r : Row)
    (txn : Transaction) : LoopSt :=
  { pending := mp.pending, skipAll := mp.skipAll, inputs := mp.inputs,
    entries := st.entries ++ [txn], index := (i : ℤ), lastRow := some r,
    aborted := false }

/-- Lines 67–100 of `extract`: the `for index, row in enumerate(...)`
loop.  `i` is the enumeration counter.  On an abort (`map_payee`
returned `"\x00"`) the index is decremented and the loop breaks; an
uncaught exception while building a transaction is `none`. -/
def extractLoop (root : List Char) (df : List CacheEntry) :
    List Row → ℕ → LoopSt → Option LoopSt
  | [], _, st => some st
  | r :: rs, i, st =>
    let pn := normalizeRow r
    let mp := map_payee df st.pending st.skipAll st.inputs pn.1 r
    if mp.ret = ['\x00'] then some (abortState mp st i r)
    else
      match buildTxn root df i r pn.1 mp.ret pn.2 with
      | none => none
      | some txn => extractLoop root df rs (i + 1) (contState mp st i r txn)

/-- Python list indexing `l[i]`: non-negative indices from the front,
negative indices from the back, out of range raises (`none`). -/
def pyGet {α : Type} (l : List α) (i : ℤ) : Option α :=
  if 0 ≤ i then l[i.toNat]?
  else if 0 ≤ i + l.length then l[(i + l.length).toNat]?
  else none

/-- Lines 54–62 of `extract`: `pd.read_csv` of the payee cache inside
`try/except IOError`.  `none` stands for an absent file: the table is
then empty and the "Writing new cache" notice is printed (`true`). -/
def loadCacheTable (cacheFile : Option (List CacheEntry)) :
    List CacheEntry × Bool :=
  match cacheFile with
  | some df => (df, false)
  | none => ([], true)

/-- Everything observable about one `extract` call: the returned entry
list, the final run state, whether the new-cache notice was printed,
whether the `.old` backup was written, and the table written back to the
cache file (`none` when the file is left untouched). -/
structure ExtractResult where
  entries : List Entry
  pending : List (List Char × List Char)
  skipAll : Bool
  inputs : List (List Char)
  finalIndex : ℤ
  lastRow : Option Row
  aborted : Bool
  newCacheNotice : Bool
  wroteBackup : Bool
  cacheWrite : Option (List CacheEntry)
deriving Repr, DecidableEq

/-- Lines 102–111 of `extract` in isolation: when the Python variable
`index` is truthy, append the Balance entry — date one day after
`row['txn_date']`, amount `entries[index].postings[0].units` plus
`(D(row['balance_before']), row['account_comm'])`; otherwise the entry
list is returned as is.  Failures (`row` still `{}` giving a `KeyError`,
bad parses, `entries[index]` out of range, `postings[0]` missing, a
`None` units, mismatched currencies) raise (`none`). -/
def balanceStep (root : List Char) (st : LoopSt) : Option (List Entry) :=
  let base : List Entry := st.entries.map Entry.txn
  if st.index ≠ 0 then
    match st.lastRow with
    | none => none
    | some row =>
      match parseDate row.txn_date, pyGet st.entries st.index with
      | some dt, some t =>
        match t.postings with
        | [] => none
        | p :: _ =>
          match p.units, D row.balance_before with
          | some u, some bb =>
            match amountAdd u (bb, row.account_comm) with
            | some a => some (base ++ [Entry.bal ⟨st.index, dt + 1, root, a⟩])
            | none => none
          | _, _ => none
      | _, _ => none
  else some base

/-- Lines 102–119 of `extract`: the balance step followed by the cache
flush (lines 113–118: when `new_payees` is non-empty, back the cache
file up to `.old` and rewrite it with the pending rows appended). -/
def finishExtract (root : List Char) (df : List CacheEntry) (notice : Bool)
    (st : LoopSt) : Option ExtractResult :=
  (balanceStep root st).map fun es =>
    { entries := es, pending := st.pending, skipAll := st.skipAll,
      inputs := st.inputs, finalIndex := st.index, lastRow := st.lastRow,
      aborted := st.aborted,
      newCacheNotice := notice,
      wroteBackup := st.pending ≠ [],
      cacheWrite :=
        if st.pending = [] then none
        else some (df ++ st.pending.map fun kv => ⟨kv.1, kv.2, []⟩) }

/-- Method `ASNImporter.extract` (lines 53–119): load the cache, run the row
loop, then `finishExtract`. -/
def extract (root : List Char) (cacheFile : Option (List CacheEntry))
    (rows : List Row) (inputs : List (List Char)) : Option ExtractResult :=
  let dfn := loadCacheTable cacheFile
  match extractLoop root dfn.1 rows 0 ⟨[], false, inputs, [], 0, none, false⟩ with
  | none => none
  | some st => finishExtract root dfn.1 dfn.2 st

/-- The literal `\.csv` at the current position of the regex scan. -/
def isCsvAt (l : List Char) : Bool :=
  match l with
  | c1 :: c2 :: c3 :: c4 :: _ => c1 = '.' && c2 = 'c' && c3 = 's' && c4 = 'v'
  | _ => false

/-- Regex `.*\.csv` under `re.match`'s prefix semantics: either `".csv"` starts
here, or one non-newline character is consumed by `.*` and the scan
continues (`.` does not match `'\n'`). -/
def dotStarCsv : List Char → Bool
  | [] => false
  | c :: cs => isCsvAt (c :: cs) || (decide (c ≠ '\n') && dotStarCsv cs)

/-- Regex `\d{n}` at the current position: consume exactly `n` digits. -/
def digitsN : ℕ → List Char → Option (List Char)
  | 0, cs => some cs
  | _ + 1, [] => none
  | n + 1, c :: cs => if pyIsDigit c then digitsN n cs else none

/-- The literal `_` at the current position. -/
def underscoreAt : List Char → Option (List Char)
  | c :: cs => if c = '_' then some cs else none
  | [] => none

/-- Python `re.match(r"\d{10}_\d{8}_\d{6}.*\.csv", s)` as a Bool (`re.match`
anchors only at the start of the string: whatever follows the matched
prefix is ignored). -/
def fnPatternMatch (s : List Char) : Bool :=
  match ((((digitsN 10 s).bind underscoreAt).bind (digitsN 8)).bind
      underscoreAt).bind (digitsN 6) with
  | some rest => dotStarCsv rest
  | none => false

/-- Python slice `s[-n:]` — the last `min n (length s)` characters. -/
def lastN (n : ℕ) (l : List Char) : List Char := l.drop (l.length - n)

/-- Method `ASNImporter.identify` (lines 38–41): the basename must start with a
match of `\d{10}_\d{8}_\d{6}.*\.csv` and its first ten characters must
equal the last ten characters of the configured account number.  (The
argument is already the basename, as `os.path.basename` produces it.) -/
def identify (account_no fname : List Char) : Bool :=
  fnPatternMatch fname && decide (fname.take 10 = lastN 10 account_no)

/-- Modelled from the spec: the applicability pattern read as covering
the whole basename — after the three digit groups an optional suffix and
then a final `".csv"`, with nothing after it.  This follows the spec's
words "10 digits, underscore, 8 digits, underscore, 6 digits, optional
suffix, `.csv`"; it exists only to be compared with the code's
prefix-matching `identify`. -/
def suffixThenCsv : List Char → Bool
  | [] => false
  | c :: cs => (isCsvAt (c :: cs) && cs.length = 3) || suffixThenCsv cs

/-- Modelled from the spec: full-basename variant of `fnPatternMatch`. -/
def specFullPattern (s : List Char) : Bool :=
  match ((((digitsN 10 s).bind underscoreAt).bind (digitsN 8)).bind
      underscoreAt).bind (digitsN 6) with
  | some rest => suffixThenCsv rest
  | none => false

/-- Modelled from the spec: `identify` as the claim words it, with the
pattern required to cover the whole basename. -/
def specIdentify (account_no fname : List Char) : Bool :=
  specFullPattern fname && decide (fname.take 10 = lastN 10 account_no)

/-- Number of Balance entries in an output list. -/
def countBals (es : List Entry) : ℕ :=
  es.countP fun e => match e with | Entry.bal _ => true | Entry.txn _ => false

/-- Sample primary account used by the concrete test inputs below. -/
def chk : List Char := "Assets:Check".data

/-- Sample persisted payee cache: `NL01` resolves to payee `Alice` with
a posting account, `NL02` to `Bob` without one. -/
def cacheSample : List CacheEntry :=
  [⟨"NL01".data, "Alice".data, "Expenses:Food".data⟩,
   ⟨"NL02".data, "Bob".data, []⟩]

/-- Build a sample CSV row (EUR amounts, balance-before 100.00). -/
def mkSampleRow (dt ca py am ds : String) : Row :=
  { txn_date := dt.data, contra_account := ca.data, payee := py.data,
    account_comm := "EUR".data, balance_before := "100.00".data,
    txn_comm := "EUR".data, amount := am.data, description := ds.data }

/-- Row 1: cache hit on `NL01`. -/
def rowA : Row := mkSampleRow "01-02-2021" "NL01" "x" "5.00" "d1"

/-- Row 2 variant with a cache hit on `NL02`. -/
def rowB : Row := mkSampleRow "02-02-2021" "NL02" "y" "6.00" "d2"

/-- Row 3: cache hit on `NL01` again. -/
def rowC : Row := mkSampleRow "03-02-2021" "NL01" "z" "7.00" "d3"

/-- A row whose key `NL99` has no cache entry (it forces a prompt). -/
def rowU : Row := mkSampleRow "02-02-2021" "NL99" "y" "6.00" "d2"

/-- A row with a non-empty payee field and a `'>'` in its description. -/
def rowGt : Row := mkSampleRow "01-02-2021" "" "SHOP" "5.00" "STORE>BOUGHT GROCERIES"

/-- A default result value, used only to name the value inside a
computed `Option ExtractResult` via `Option.getD` in closed statements. -/
def emptyResult : ExtractResult :=
  ⟨[], [], false, [], 0, none, false, false, false, none⟩

/-- A 3-row all-cache-hit run (no operator input needed). -/
def run3 : Option ExtractResult :=
  extract chk (some cacheSample) [rowA, rowB, rowC] []

/-- A 1-row all-cache-hit run. -/
def run1 : Option ExtractResult :=
  extract chk (some cacheSample) [rowA] []

/-- A 3-row run whose second row forces a prompt and the operator
enters `"q"`. -/
def run3q : Option ExtractResult :=
  extract chk (some cacheSample) [rowA, rowU, rowC] ["q".data]

/-! ## Claim C3 — narration-prefix handling in the normalizer -/

/-- C3: for a row whose payee field is non-empty after capitalization
(`"SHOP"` capitalizes to `"Shop"`), the claim says the payee is never
replaced by a narration prefix.  The code replaces it anyway — the guard
`re.match(r"\s*", payee)` matches the empty prefix of every string, so
the split is applied whenever the narration contains `'>'`: normalizing
a row with payee `"SHOP"` and description `"STORE>BOUGHT GROCERIES"`
yields payee `"STORE"`, not `"Shop"`. -/
theorem normalizeRow_replaces_nonempty_payee :
    capwords rowGt.payee = "Shop".data ∧
    rowGt.payee ≠ [] ∧
    normalizeRow rowGt = ("STORE".data, "STORE>BOUGHT GROCERIES".data) := by
  decide

/-! ## Claim C6 — one key-selection policy in both resolvers -/

/-- C6: the resolution key — transcribed once from `map_payee` (lines
126–131) and once from `add_post` (lines 170–175) — is the same
function in both places, and it prefers a non-empty `contra_account`,
then a non-empty payee, then the raw description. -/
theorem resolution_key_policy :
    (∀ payee row, mapPayeeKey payee row = addPostKey payee row) ∧
    (∀ payee row, row.contra_account ≠ [] →
      mapPayeeKey payee row = row.contra_account) ∧
    (∀ payee row, row.contra_account = [] → payee ≠ [] →
      mapPayeeKey payee row = payee) ∧
    (∀ payee row, row.contra_account = [] → payee = [] →
      mapPayeeKey payee row = row.description) := by
  refine ⟨fun payee row => rfl, fun payee row h => ?_, fun payee row h hp => ?_,
    fun payee row h hp => ?_⟩
  · simp [mapPayeeKey, h]
  · simp [mapPayeeKey, h, hp]
  · simp [mapPayeeKey, h, hp]

/-- Witness for C6 at concrete inputs: `rowA` has contra-account `NL01`,
so the key is `NL01` whatever the payee. -/
theorem resolution_key_policy_witness :
    mapPayeeKey "x".data rowA = addPostKey "x".data rowA ∧
    rowA.contra_account ≠ [] ∧
    mapPayeeKey "x".data rowA = rowA.contra_account :=
  ⟨resolution_key_policy.1 "x".data rowA, by decide,
   resolution_key_policy.2.1 "x".data rowA (by decide)⟩

/-! ## Claim C9 — missing cache file is recovered -/

/-- C9: when the payee cache file is absent (`pd.read_csv` raises
`IOError`), `extract` does not fail: the table is empty, the diagnostic
notice is printed, and the run is otherwise identical to a run with an
empty cache table on disk. -/
theorem missing_cache_file_recovers (root : List Char) (rows : List Row)
    (inputs : List (List Char)) :
    loadCacheTable none = ([], true) ∧
    extract root none rows inputs =
      (extract root (some []) rows inputs).map
        (fun r => { r with newCacheNotice := true }) := by
  refine ⟨rfl, ?_⟩
  have h1 : extract root none rows inputs =
      match extractLoop root [] rows 0 ⟨[], false, inputs, [], 0, none, false⟩ with
      | none => none
      | some st => finishExtract root [] true st := rfl
  have h2 : extract root (some []) rows inputs =
      match extractLoop root [] rows 0 ⟨[], false, inputs, [], 0, none, false⟩ with
      | none => none
      | some st => finishExtract root [] false st := rfl
  rw [h1, h2]
  cases extractLoop root [] rows 0 ⟨[], false, inputs, [], 0, none, false⟩ with
  | none => rfl
  | some st =>
    show finishExtract root [] true st = (finishExtract root [] false st).map _
    unfold finishExtract
    cases balanceStep root st <;> rfl

/-! ## Claim C4 — the skip-all flag suppresses all later prompts -/

/-- C4: entering `"S"` at a prompt (an unresolved key: no cache hit, no
run-local hit, flag not yet set) returns the normalized payee unchanged,
adds no pending entry, consumes exactly that input line, and sets
`skip_all`; and in the resulting state every later unresolved key is
returned as its payee unchanged with no prompt (no input consumed) and
no pending entry, with the flag still set. -/
theorem skip_all_suppresses_prompts (df : List CacheEntry)
    (pending : List (List Char × List Char)) (payee : List Char) (row : Row)
    (rest : List (List Char))
    (h1 : lookupBC df (mapPayeeKey payee row) = none)
    (h2 : pendingLookup pending (mapPayeeKey payee row) = none) :
    map_payee df pending false (['S'] :: rest) payee row =
      ⟨payee, pending, true, rest, true⟩ ∧
    (∀ (pending2 : List (List Char × List Char)) (inputs2 : List (List Char))
       (payee2 : List Char) (row2 : Row),
       lookupBC df (mapPayeeKey payee2 row2) = none →
       pendingLookup pending2 (mapPayeeKey payee2 row2) = none →
       map_payee df pending2 true inputs2 payee2 row2 =
         ⟨payee2, pending2, true, inputs2, false⟩) := by
  constructor
  · simp [map_payee, h1, h2]
  · intro pending2 inputs2 payee2 row2 g1 g2
    simp [map_payee, g1, g2]

/-- Witness for C4: concrete run — key `NL99` unknown, operator answers
`"S"`, and a later call on the same state with the (still unknown) key
`NL98` neither prompts nor records anything. -/
theorem skip_all_suppresses_prompts_witness :
    map_payee cacheSample [] false (['S'] :: []) "y".data rowU =
      ⟨"y".data, [], true, [], true⟩ ∧
    map_payee cacheSample [] true [] "z".data
        (mkSampleRow "03-02-2021" "NL98" "z" "7.00" "d3") =
      ⟨"z".data, [], true, [], false⟩ := by
  have h := skip_all_suppresses_prompts cacheSample [] "y".data rowU []
    (by decide) (by decide)
  exact ⟨h.1, h.2 [] [] "z".data (mkSampleRow "03-02-2021" "NL98" "z" "7.00" "d3")
    (by decide) (by decide)⟩

/-! ## Claim C5 — run-local memoization of a repeated key -/

/-- Appending a fresh key to the run-local dict makes it found. -/
theorem pendingLookup_append (pending : List (List Char × List Char))
    (key v : List Char) (h : pendingLookup pending key = none) :
    pendingLookup (pending ++ [(key, v)]) key = some v := by
  induction pending with
  | nil => simp [pendingLookup]
  | cons kv t ih =>
    by_cases hk : kv.1 = key
    · exfalso
      simp [pendingLookup, List.find?, hk] at h
    · simp only [pendingLookup, List.cons_append, List.find?] at h ⊢
      simp only [hk, decide_False] at h ⊢
      exact ih h

/-- C5: a key with no persisted-cache hit, not yet memoized, resolved
while `skip_all` is off and answered with a regular name (not one of the
sentinels `"s"`, `"S"`, `"q"`): the first call prompts (consumes the
input line) and memoizes the entered value (`"="` standing for the payee
itself); a second resolution of the same key in the same run returns the
memoized value without prompting and without touching the dict. -/
theorem repeated_key_prompts_once (df : List CacheEntry)
    (pending : List (List Char × List Char)) (payee : List Char) (row : Row)
    (v : List Char) (rest : List (List Char))
    (hk : mapPayeeKey payee row ≠ [])
    (h1 : lookupBC df (mapPayeeKey payee row) = none)
    (h2 : pendingLookup pending (mapPayeeKey payee row) = none)
    (hs : v ≠ ['s']) (hS : v ≠ ['S']) (hq : v ≠ ['q']) :
    map_payee df pending false (v :: rest) payee row =
      ⟨if v = ['='] then payee else v,
       pending ++ [(mapPayeeKey payee row, if v = ['='] then payee else v)],
       false, rest, true⟩ ∧
    (∀ payee2 row2, mapPayeeKey payee2 row2 = mapPayeeKey payee row →
      map_payee df (pending ++ [(mapPayeeKey payee row, if v = ['='] then payee else v)])
          false rest payee2 row2 =
        ⟨if v = ['='] then payee else v,
         pending ++ [(mapPayeeKey payee row, if v = ['='] then payee else v)],
         false, rest, false⟩) := by
  constructor
  · simp [map_payee, h1, h2, hs, hS, hq, hk]
  · intro payee2 row2 heq
    have hp := pendingLookup_append pending (mapPayeeKey payee row)
      (if v = ['='] then payee else v) h2
    simp [map_payee, heq, h1, hp]

/-- Witness for C5: key `NL99`, operator enters `"Carol"`; the second
resolution of the same row returns `"Carol"` with no prompt. -/
theorem repeated_key_prompts_once_witness :
    map_payee cacheSample [] false ("Carol".data :: []) "y".data rowU =
      ⟨"Carol".data, [("NL99".data, "Carol".data)], false, [], true⟩ ∧
    map_payee cacheSample [("NL99".data, "Carol".data)] false [] "y".data rowU =
      ⟨"Carol".data, [("NL99".data, "Carol".data)], false, [], false⟩ := by
  have h := repeated_key_prompts_once cacheSample [] "y".data rowU "Carol".data []
    (by decide) (by decide) (by decide) (by decide) (by decide) (by decide)
  exact ⟨h.1, h.2 "y".data rowU rfl⟩

/-! ## Claim C7 — file identification -/

/-- The matcher `isCsvAt` succeeds exactly on strings starting with `".csv"`. -/
theorem isCsvAt_iff (l : List Char) :
    isCsvAt l = true ↔ ∃ r, l = '.' :: 'c' :: 's' :: 'v' :: r := by
  match l with
  | [] => simp [isCsvAt]
  | [c1] => simp [isCsvAt]
  | [c1, c2] => simp [isCsvAt]
  | [c1, c2, c3] => simp [isCsvAt]
  | c1 :: c2 :: c3 :: c4 :: r =>
    constructor
    · intro h
      simp only [isCsvAt, Bool.and_eq_true, decide_eq_true_eq] at h
      obtain ⟨⟨⟨e1, e2⟩, e3⟩, e4⟩ := h
      subst e1; subst e2; subst e3; subst e4
      exact ⟨r, rfl⟩
    · rintro ⟨r', hr⟩
      cases hr
      simp [isCsvAt]

/-- The matcher `dotStarCsv` succeeds exactly when `".csv"` occurs after a newline-free
prefix (the semantics of `.*\.csv` under `re.match`). -/
theorem dotStarCsv_iff (cs : List Char) :
    dotStarCsv cs = true ↔
      ∃ a rest, cs = a ++ '.' :: 'c' :: 's' :: 'v' :: rest ∧
        a.all (fun x => x != '\n') = true := by
  induction cs with
  | nil =>
    simp [dotStarCsv]
  | cons c cs' ih =>
    rw [dotStarCsv]
    simp only [Bool.or_eq_true, Bool.and_eq_true, decide_eq_true_eq]
    constructor
    · rintro (h | ⟨hc, hrec⟩)
      · obtain ⟨r, hr⟩ := (isCsvAt_iff _).mp h
        exact ⟨[], r, by simp [hr], by simp⟩
      · obtain ⟨a, rest, hsplit, hall⟩ := ih.mp hrec
        refine ⟨c :: a, rest, by simp [hsplit], ?_⟩
        simp only [List.all_cons, Bool.and_eq_true, bne_iff_ne]
        exact ⟨hc, by simpa using hall⟩
    · rintro ⟨a, rest, hsplit, hall⟩
      cases a with
      | nil =>
        left
        exact (isCsvAt_iff _).mpr ⟨rest, by simpa using hsplit⟩
      | cons a0 a' =>
        right
        simp only [List.cons_append, List.cons.injEq] at hsplit
        simp only [List.all_cons, Bool.and_eq_true, bne_iff_ne] at hall
        exact ⟨hsplit.1 ▸ hall.1, ih.mpr ⟨a', rest, hsplit.2, by simpa using hall.2⟩⟩

/-- The matcher `underscoreAt` succeeds exactly on strings starting with `'_'`. -/
theorem underscoreAt_some_iff (l r : List Char) :
    underscoreAt l = some r ↔ l = '_' :: r := by
  cases l with
  | nil => simp [underscoreAt]
  | cons c cs =>
    by_cases h : c = '_'
    · subst h; simp [underscoreAt]
    · simp [underscoreAt, h, Ne.symm h]

/-- The matcher `digitsN n` consumes exactly an `n`-digit prefix. -/
theorem digitsN_some_iff (n : ℕ) : ∀ (cs r : List Char),
    digitsN n cs = some r ↔
      ∃ d, cs = d ++ r ∧ d.length = n ∧ d.all pyIsDigit = true := by
  induction n with
  | zero =>
    intro cs r
    constructor
    · intro h
      simp only [digitsN, Option.some.injEq] at h
      exact ⟨[], by simp [h], rfl, rfl⟩
    · rintro ⟨d, hcs, hlen, _⟩
      have hd : d = [] := List.length_eq_zero.mp hlen
      subst hd
      simpa [digitsN] using hcs
  | succ n ih =>
    intro cs r
    cases cs with
    | nil =>
      simp only [digitsN]
      constructor
      · intro h; exact absurd h (by simp)
      · rintro ⟨d, hcs, hlen, _⟩
        cases d with
        | nil => simp at hlen
        | cons d0 d' => simp at hcs
    | cons c cs' =>
      by_cases hc : pyIsDigit c
      · rw [show digitsN (n + 1) (c :: cs') = digitsN n cs' by simp [digitsN, hc]]
        rw [ih cs' r]
        constructor
        · rintro ⟨d, hsplit, hlen, hall⟩
          exact ⟨c :: d, by simp [hsplit], by simp [hlen],
            by simp [List.all_cons, hall, hc]⟩
        · rintro ⟨d, hsplit, hlen, hall⟩
          cases d with
          | nil => simp at hlen
          | cons d0 d' =>
            simp only [List.cons_append, List.cons.injEq] at hsplit
            simp only [List.all_cons, Bool.and_eq_true] at hall
            exact ⟨d', hsplit.2, by simpa using hlen, hall.2⟩
      · rw [show digitsN (n + 1) (c :: cs') = none by simp [digitsN, hc]]
        constructor
        · intro h; exact absurd h (by simp)
        · rintro ⟨d, hsplit, hlen, hall⟩
          cases d with
          | nil => simp at hlen
          | cons d0 d' =>
            simp only [List.cons_append, List.cons.injEq] at hsplit
            simp only [List.all_cons, Bool.and_eq_true] at hall
            exact absurd (hsplit.1 ▸ hall.1) hc

/-- The code's filename regex, characterized: a 10-digit group, `'_'`,
an 8-digit group, `'_'`, a 6-digit group, then `".csv"` after an
arbitrary newline-free gap — and anything at all may follow. -/
theorem fnPatternMatch_iff (s : List Char) :
    fnPatternMatch s = true ↔
      ∃ a b c mid rest,
        s = a ++ '_' :: (b ++ '_' :: (c ++ (mid ++ '.' :: 'c' :: 's' :: 'v' :: rest))) ∧
        a.length = 10 ∧ a.all pyIsDigit = true ∧
        b.length = 8 ∧ b.all pyIsDigit = true ∧
        c.length = 6 ∧ c.all pyIsDigit = true ∧
        mid.all (fun x => x != '\n') = true := by
  unfold fnPatternMatch
  constructor
  · intro h
    split at h
    case h_1 rest6 hbind =>
      simp only [Option.bind_eq_some] at hbind
      obtain ⟨r4, ⟨r3, ⟨r2, ⟨r1, hd10, hu1⟩, hd8⟩, hu2⟩, hd6⟩ := hbind
      obtain ⟨a, ha, halen, haall⟩ := (digitsN_some_iff 10 s r1).mp hd10
      rw [underscoreAt_some_iff] at hu1
      obtain ⟨b, hb, hblen, hball⟩ := (digitsN_some_iff 8 r2 r3).mp hd8
      rw [underscoreAt_some_iff] at hu2
      obtain ⟨c, hc, hclen, hcall⟩ := (digitsN_some_iff 6 r4 rest6).mp hd6
      obtain ⟨mid, rest, hmid, hmidall⟩ := (dotStarCsv_iff rest6).mp h
      refine ⟨a, b, c, mid, rest, ?_, halen, haall, hblen, hball, hclen, hcall, hmidall⟩
      rw [ha, hu1, hb, hu2, hc, hmid]
    case h_2 => exact absurd h (by simp)
  · rintro ⟨a, b, c, mid, rest, hs, halen, haall, hblen, hball, hclen, hcall, hmidall⟩
    have hd10 : digitsN 10 s =
        some ('_' :: (b ++ '_' :: (c ++ (mid ++ '.' :: 'c' :: 's' :: 'v' :: rest)))) :=
      (digitsN_some_iff 10 s _).mpr ⟨a, by simpa using hs, halen, haall⟩
    have hd8 : digitsN 8 (b ++ '_' :: (c ++ (mid ++ '.' :: 'c' :: 's' :: 'v' :: rest))) =
        some ('_' :: (c ++ (mid ++ '.' :: 'c' :: 's' :: 'v' :: rest))) :=
      (digitsN_some_iff 8 _ _).mpr ⟨b, by simp, hblen, hball⟩
    have hd6 : digitsN 6 (c ++ (mid ++ '.' :: 'c' :: 's' :: 'v' :: rest)) =
        some (mid ++ '.' :: 'c' :: 's' :: 'v' :: rest) :=
      (digitsN_some_iff 6 _ _).mpr ⟨c, by simp, hclen, hcall⟩
    have hcsv : dotStarCsv (mid ++ '.' :: 'c' :: 's' :: 'v' :: rest) = true :=
      (dotStarCsv_iff _).mpr ⟨mid, rest, rfl, hmidall⟩
    rw [hd10]
    simp only [Option.some_bind]
    rw [(underscoreAt_some_iff _ _).mpr rfl]
    simp only [Option.some_bind]
    rw [hd8]
    simp only [Option.some_bind]
    rw [(underscoreAt_some_iff _ _).mpr rfl]
    simp only [Option.some_bind]
    rw [hd6]
    exact hcsv

/-- C7 (amended): `identify` accepts a file exactly when the basename
*starts with* a match of the pattern — 10 digits, `'_'`, 8 digits, `'_'`,
6 digits, an optional newline-free gap, `".csv"`, after which arbitrary
trailing characters are tolerated (`re.match` anchors only at the start)
— and the leading 10 characters equal the last 10 characters of the
configured account number; on names with nothing after the `".csv"` this
is the behaviour the claim describes, and both of the claim's concrete
examples hold. -/
theorem identify_characterization :
    (∀ acct fname, identify acct fname = true ↔
      ((∃ a b c mid rest,
        fname = a ++ '_' :: (b ++ '_' :: (c ++ (mid ++ '.' :: 'c' :: 's' :: 'v' :: rest))) ∧
        a.length = 10 ∧ a.all pyIsDigit = true ∧
        b.length = 8 ∧ b.all pyIsDigit = true ∧
        c.length = 6 ∧ c.all pyIsDigit = true ∧
        mid.all (fun x => x != '\n') = true) ∧
       fname.take 10 = lastN 10 acct)) ∧
    identify "NL001234567890".data "1234567890_01022021_000001.csv".data = true ∧
    identify "NL009999999999".data "1234567890_01022021_000001.csv".data = false := by
  refine ⟨fun acct fname => ?_, by decide, by decide⟩
  unfold identify
  rw [Bool.and_eq_true, decide_eq_true_eq, fnPatternMatch_iff]

/-- Witness for C7's amended theorem at a concrete input. -/
theorem identify_characterization_witness :
    identify "NL001234567890".data "1234567890_01022021_000001.csv".data = true :=
  identify_characterization.2.1

/-- C7 counterexample: the claim reads the pattern as covering the whole
basename ("optional suffix, `.csv`").  The code's `re.match` has no end
anchor, so a name with trailing characters after `".csv"` — here
`".csv.old"` — is still identified, though it does not match the
spec-worded full pattern. -/
theorem identify_trailing_garbage :
    identify "NL001234567890".data "1234567890_01022021_000001.csv.old".data = true ∧
    specIdentify "NL001234567890".data "1234567890_01022021_000001.csv.old".data = false := by
  decide

/-! ## Claim C8 — postings of a built transaction -/

/-- Equation for `add_post`, with its let-bound key unfolded. -/
theorem add_post_eq (txn : Transaction) (df : List CacheEntry) (payee : List Char)
    (row : Row) :
    add_post txn df payee row =
      match lookupPosting df (addPostKey payee row) with
      | some p =>
        if p ≠ [] then { txn with postings := txn.postings ++ [⟨p, none⟩] } else txn
      | none => txn := rfl

/-- C8: every transaction built for a row has as its first posting the
configured primary account with the row's signed amount and currency,
and it carries a second posting — that account, no explicit amount —
exactly when the cache lookup of the resolution key yields a present,
non-empty `POSTING` value. -/
theorem built_transaction_postings (root : List Char) (df : List CacheEntry)
    (i : ℕ) (row : Row) (payee payee_mpd narrate : List Char) (txn : Transaction)
    (h : buildTxn root df i row payee payee_mpd narrate = some txn) :
    ∃ q, D row.amount = some q ∧
      txn.postings.head? = some ⟨root, some (q, row.txn_comm)⟩ ∧
      (lookupPosting df (addPostKey payee row) = none →
        txn.postings = [⟨root, some (q, row.txn_comm)⟩]) ∧
      (∀ p, lookupPosting df (addPostKey payee row) = some p → p = [] →
        txn.postings = [⟨root, some (q, row.txn_comm)⟩]) ∧
      (∀ p, lookupPosting df (addPostKey payee row) = some p → p ≠ [] →
        txn.postings = [⟨root, some (q, row.txn_comm)⟩, ⟨p, none⟩]) := by
  unfold buildTxn at h
  cases hdt : parseDate row.txn_date with
  | none => rw [hdt] at h; exact absurd h (by simp)
  | some dt =>
    cases hq : D row.amount with
    | none => rw [hdt, hq] at h; exact absurd h (by simp)
    | some q =>
      rw [hdt, hq] at h
      simp only [Option.some.injEq] at h
      subst h
      rw [add_post_eq]
      refine ⟨q, rfl, ?_, ?_, ?_, ?_⟩
      · cases hlp : lookupPosting df (addPostKey payee row) with
        | none => rfl
        | some p =>
          by_cases hp : p = []
          · simp [hp]
          · simp [hp]
      · intro hlp
        rw [hlp]
      · intro p hlp hp
        rw [hlp]
        simp [hp]
      · intro p hlp hp
        rw [hlp]
        simp [hp]

/-- Witness for C8: row `rowA`'s key `NL01` has posting account
`Expenses:Food` in the sample cache, so its transaction has exactly the
two postings. -/
theorem built_transaction_postings_witness :
    ∃ txn, buildTxn chk cacheSample 0 rowA "x".data "Alice".data "d1".data = some txn ∧
      txn.postings = [⟨chk, some (⟨500, 2⟩, "EUR".data)⟩,
        ⟨"Expenses:Food".data, none⟩] := by
  have hbuild : buildTxn chk cacheSample 0 rowA "x".data "Alice".data "d1".data =
      some ⟨0, 737822, some "Alice".data, "d1".data,
        [⟨chk, some (⟨500, 2⟩, "EUR".data)⟩, ⟨"Expenses:Food".data, none⟩]⟩ := by
    decide
  obtain ⟨q, hq, hhead, hnone, hempty, hsome⟩ :=
    built_transaction_postings chk cacheSample 0 rowA "x".data "Alice".data "d1".data _ hbuild
  have hq500 : q = ⟨500, 2⟩ := by
    have hd : D rowA.amount = some (⟨500, 2⟩ : Dec) := by decide
    rw [hd, Option.some.injEq] at hq
    exact hq.symm
  refine ⟨_, hbuild, ?_⟩
  rw [hsome "Expenses:Food".data (by decide) (by decide), hq500]
  rfl

/-! ## Claims C1/C2 — the trailing balance assertion -/

/-- Running `extractLoop` on no rows leaves the state unchanged. -/
theorem extractLoop_nil (root : List Char) (df : List CacheEntry) (i : ℕ)
    (st : LoopSt) : extractLoop root df [] i st = some st := rfl

/-- One unfolding of `extractLoop`. -/
theorem extractLoop_cons (root : List Char) (df : List CacheEntry) (r : Row)
    (rs : List Row) (i : ℕ) (st : LoopSt) :
    extractLoop root df (r :: rs) i st =
      (if (map_payee df st.pending st.skipAll st.inputs (normalizeRow r).1 r).ret
          = ['\x00'] then
        some (abortState
          (map_payee df st.pending st.skipAll st.inputs (normalizeRow r).1 r) st i r)
      else
        match buildTxn root df i r (normalizeRow r).1
            (map_payee df st.pending st.skipAll st.inputs (normalizeRow r).1 r).ret
            (normalizeRow r).2 with
        | none => none
        | some txn =>
          extractLoop root df rs (i + 1) (contState
            (map_payee df st.pending st.skipAll st.inputs (normalizeRow r).1 r)
            st i r txn)) := rfl

/-- A completed (never-aborted) run over a non-empty row list: the final
index is `i + n - 1`, the final `row` is the last row, exactly one
transaction per row was appended, and the last appended transaction was
built (at index `i + n - 1`) from the last row. -/
theorem extractLoop_no_abort (root : List Char) (df : List CacheEntry) :
    ∀ (rows : List Row) (i : ℕ) (st st2 : LoopSt),
      extractLoop root df rows i st = some st2 →
      st2.aborted = false →
      rows ≠ [] →
      ∃ (r : Row) (t : Transaction) (ts : List Transaction) (mpd : List Char),
        rows.getLast? = some r ∧
        st2.lastRow = some r ∧
        st2.index = (i : ℤ) + rows.length - 1 ∧
        st2.entries = st.entries ++ ts ++ [t] ∧
        ts.length + 1 = rows.length ∧
        buildTxn root df (i + rows.length - 1) r (normalizeRow r).1 mpd
          (normalizeRow r).2 = some t := by
  intro rows
  induction rows with
  | nil => intro i st st2 _ _ hne; exact absurd rfl hne
  | cons r0 rs ih =>
    intro i st st2 h hab _
    rw [extractLoop_cons] at h
    by_cases habort :
        (map_payee df st.pending st.skipAll st.inputs (normalizeRow r0).1 r0).ret
          = ['\x00']
    · rw [if_pos habort, Option.some.injEq] at h
      rw [← h] at hab
      simp [abortState] at hab
    · rw [if_neg habort] at h
      cases hb : buildTxn root df i r0 (normalizeRow r0).1
          (map_payee df st.pending st.skipAll st.inputs (normalizeRow r0).1 r0).ret
          (normalizeRow r0).2 with
      | none => rw [hb] at h; exact absurd h (by simp)
      | some txn =>
        rw [hb] at h
        dsimp only at h
        by_cases hrs : rs = []
        · subst hrs
          rw [extractLoop_nil, Option.some.injEq] at h
          subst h
          refine ⟨r0, txn, [],
            (map_payee df st.pending st.skipAll st.inputs (normalizeRow r0).1 r0).ret,
            rfl, rfl, ?_, ?_, rfl, ?_⟩
          · show (i : ℤ) = (i : ℤ) + ([r0].length : ℕ) - 1
            simp
          · show (contState _ st i r0 txn).entries = st.entries ++ [] ++ [txn]
            simp [contState]
          · simpa using hb
        · obtain ⟨r, t, ts, mpd, hlast, hlr, hidx, hent, hlen, hbt⟩ :=
            ih (i + 1) _ st2 h hab hrs
          obtain ⟨r1, rs', rfl⟩ := List.exists_cons_of_ne_nil hrs
          refine ⟨r, t, txn :: ts, mpd, ?_, hlr, ?_, ?_, ?_, ?_⟩
          · rw [List.getLast?_cons_cons]
            exact hlast
          · rw [hidx]
            simp only [List.length_cons]
            push_cast
            ring
          · rw [hent]
            simp [contState]
          · simp only [List.length_cons] at hlen ⊢
            omega
          · simp only [List.length_cons] at hbt ⊢
            have heq : i + 1 + (rs'.length + 1) - 1 = i + (rs'.length + 1 + 1) - 1 := by
              omega
            rw [heq] at hbt
            exact hbt

/-- An aborted run: the break happened on row `k` (zero-based), `row`
holds that (aborted) row, the decremented index is `i + k - 1`, and
exactly `k` transactions (those of rows `0..k-1`) were appended. -/
theorem extractLoop_aborted (root : List Char) (df : List CacheEntry) :
    ∀ (rows : List Row) (i : ℕ) (st st2 : LoopSt),
      st.aborted = false →
      extractLoop root df rows i st = some st2 →
      st2.aborted = true →
      ∃ (k : ℕ) (r : Row) (ts : List Transaction),
        rows[k]? = some r ∧
        st2.lastRow = some r ∧
        st2.index = (i : ℤ) + k - 1 ∧
        st2.entries = st.entries ++ ts ∧
        ts.length = k := by
  intro rows
  induction rows with
  | nil =>
    intro i st st2 h0 h hab
    rw [extractLoop_nil, Option.some.injEq] at h
    subst h
    rw [h0] at hab
    exact absurd hab (by simp)
  | cons r0 rs ih =>
    intro i st st2 h0 h hab
    rw [extractLoop_cons] at h
    by_cases habort :
        (map_payee df st.pending st.skipAll st.inputs (normalizeRow r0).1 r0).ret
          = ['\x00']
    · rw [if_pos habort, Option.some.injEq] at h
      subst h
      refine ⟨0, r0, [], by simp, rfl, ?_, by simp [abortState], rfl⟩
      show (i : ℤ) - 1 = (i : ℤ) + (0 : ℕ) - 1
      simp
    · rw [if_neg habort] at h
      cases hb : buildTxn root df i r0 (normalizeRow r0).1
          (map_payee df st.pending st.skipAll st.inputs (normalizeRow r0).1 r0).ret
          (normalizeRow r0).2 with
      | none => rw [hb] at h; exact absurd h (by simp)
      | some txn =>
        rw [hb] at h
        dsimp only at h
        obtain ⟨k, r, ts, hk, hlr, hidx, hent, hlen⟩ :=
          ih (i + 1) _ st2 rfl h hab
        refine ⟨k + 1, r, txn :: ts, ?_, hlr, ?_, ?_, ?_⟩
        · simpa using hk
        · rw [hidx]
          push_cast
          ring
        · rw [hent]
          simp [contState]
        · simp [hlen]

/-- Equation for `extract`, with its let-bound cache pair unfolded. -/
theorem extract_eq (root : List Char) (cf : Option (List CacheEntry))
    (rows : List Row) (inputs : List (List Char)) :
    extract root cf rows inputs =
      match extractLoop root (loadCacheTable cf).1 rows 0
          ⟨[], false, inputs, [], 0, none, false⟩ with
      | none => none
      | some st => finishExtract root (loadCacheTable cf).1 (loadCacheTable cf).2 st :=
  rfl

/-- Python's `l[len(l) - 1]` is the last element. -/
theorem pyGet_last {α : Type} (l : List α) (h : l ≠ []) :
    pyGet l ((l.length : ℤ) - 1) = l.getLast? := by
  have hlen : 0 < l.length := List.length_pos.mpr h
  unfold pyGet
  rw [if_pos (by omega : (0 : ℤ) ≤ (l.length : ℤ) - 1)]
  rw [List.getLast?_eq_getElem?]
  congr 1
  omega

/-- Inversion of the balance step on the truthy-index path: it succeeds
only by parsing the final `row`'s date, fetching `entries[index]`,
taking its first posting's units, parsing `balance_before`, and adding
the two amounts; the produced entry list is the transactions followed by
exactly that Balance. -/
theorem balanceStep_inv (root : List Char) (st : LoopSt) (es : List Entry)
    (h : balanceStep root st = some es) (hidx : st.index ≠ 0) :
    ∃ row dt t p ps u bb a,
      st.lastRow = some row ∧
      parseDate row.txn_date = some dt ∧
      pyGet st.entries st.index = some t ∧
      t.postings = p :: ps ∧
      p.units = some u ∧
      D row.balance_before = some bb ∧
      amountAdd u (bb, row.account_comm) = some a ∧
      es = st.entries.map Entry.txn ++ [Entry.bal ⟨st.index, dt + 1, root, a⟩] := by
  unfold balanceStep at h
  rw [if_pos hidx] at h
  cases hlr : st.lastRow with
  | none => rw [hlr] at h; exact absurd h (by simp)
  | some row =>
    rw [hlr] at h
    dsimp only at h
    cases hdt : parseDate row.txn_date with
    | none =>
      rw [hdt] at h
      cases hg : pyGet st.entries st.index <;> rw [hg] at h <;> exact absurd h (by simp)
    | some dt =>
      rw [hdt] at h
      cases hg : pyGet st.entries st.index with
      | none => rw [hg] at h; exact absurd h (by simp)
      | some t =>
        rw [hg] at h
        dsimp only at h
        cases hp : t.postings with
        | nil => rw [hp] at h; exact absurd h (by simp)
        | cons p ps =>
          rw [hp] at h
          dsimp only at h
          cases hu : p.units with
          | none =>
            rw [hu] at h
            cases hbb : D row.balance_before <;> rw [hbb] at h <;>
              exact absurd h (by simp)
          | some u =>
            rw [hu] at h
            cases hbb : D row.balance_before with
            | none => rw [hbb] at h; exact absurd h (by simp)
            | some bb =>
              rw [hbb] at h
              dsimp only at h
              cases ha : amountAdd u (bb, row.account_comm) with
              | none => rw [ha] at h; exact absurd h (by simp)
              | some a =>
                rw [ha] at h
                simp only [Option.some.injEq] at h
                exact ⟨row, dt, t, p, ps, u, bb, a, rfl, hdt, rfl, hp, hu, hbb,
                  ha, h.symm⟩

/-- Inversion of `finishExtract`: success determines every result field. -/
theorem finishExtract_inv (root : List Char) (df : List CacheEntry) (notice : Bool)
    (st : LoopSt) (res : ExtractResult)
    (h : finishExtract root df notice st = some res) :
    ∃ es, balanceStep root st = some es ∧
      res = { entries := es, pending := st.pending, skipAll := st.skipAll,
              inputs := st.inputs, finalIndex := st.index, lastRow := st.lastRow,
              aborted := st.aborted, newCacheNotice := notice,
              wroteBackup := st.pending ≠ [],
              cacheWrite := if st.pending = [] then none
                else some (df ++ st.pending.map fun kv => ⟨kv.1, kv.2, []⟩) } := by
  unfold finishExtract at h
  cases hb : balanceStep root st with
  | none => rw [hb] at h; exact absurd h (by simp)
  | some es =>
    rw [hb] at h
    simp only [Option.map_some', Option.some.injEq] at h
    exact ⟨es, rfl, h.symm⟩

/-- C1 (amended): for every input file in which at least **two** rows
were processed to completion (no abort), `extract` appends exactly one
Balance assertion after the transactions, dated one day after the last
transaction's date, with amount equal to the last transaction's primary
posting amount plus the last row's `balance_before` value, in the
`account_comm` (= `txn_comm`) currency.  (With exactly one processed
row the Python guard `if index:` sees `index == 0` and appends nothing —
see the counterexample.) -/
theorem extract_appends_balance (root : List Char) (cf : Option (List CacheEntry))
    (rows : List Row) (inputs : List (List Char)) (res : ExtractResult)
    (he : extract root cf rows inputs = some res)
    (hna : res.aborted = false) (h2 : 2 ≤ rows.length) :
    ∃ (ts : List Transaction) (b : Balance) (r : Row) (dt : ℕ)
      (t : Transaction) (q bb : Dec),
      res.entries = List.map Entry.txn ts ++ [Entry.bal b] ∧
      ts.length = rows.length ∧
      rows.getLast? = some r ∧
      ts.getLast? = some t ∧
      parseDate r.txn_date = some dt ∧
      b.date = dt + 1 ∧
      b.account = root ∧
      D r.amount = some q ∧
      t.postings.head? = some ⟨root, some (q, r.txn_comm)⟩ ∧
      D r.balance_before = some bb ∧
      r.txn_comm = r.account_comm ∧
      b.amt = (decAdd q bb, r.txn_comm) := by
  rw [extract_eq] at he
  cases hloop : extractLoop root (loadCacheTable cf).1 rows 0
      ⟨[], false, inputs, [], 0, none, false⟩ with
  | none => rw [hloop] at he; exact absurd he (by simp)
  | some st =>
    rw [hloop] at he
    dsimp only at he
    obtain ⟨es, hbs, hres⟩ := finishExtract_inv _ _ _ _ _ he
    subst hres
    have hab : st.aborted = false := hna
    have hne : rows ≠ [] := by
      intro h0
      rw [h0] at h2
      simp at h2
    obtain ⟨r, t, ts', mpd, hlast, hlr, hidx, hent, hlen, hbt⟩ :=
      extractLoop_no_abort root (loadCacheTable cf).1 rows 0 _ st hloop hab hne
    have hentries : st.entries = ts' ++ [t] := by simpa using hent
    have hlenE : st.entries.length = rows.length := by
      rw [hentries]
      simp only [List.length_append, List.length_singleton]
      omega
    have hidxE : st.index = (st.entries.length : ℤ) - 1 := by
      rw [hidx, hlenE]
      push_cast
      ring
    have hidx0 : st.index ≠ 0 := by
      rw [hidxE, hlenE]
      intro hcontra
      omega
    obtain ⟨row', dt, t2, p, ps, u, bb, a, hlr2, hdt, hg, hp, hu, hbb, ha, hes⟩ :=
      balanceStep_inv root st es hbs hidx0
    rw [hlr] at hlr2
    injection hlr2 with hrow
    subst hrow
    rw [hidxE, pyGet_last st.entries (by rw [hentries]; simp),
      hentries, List.getLast?_concat] at hg
    injection hg with ht2
    subst ht2
    obtain ⟨q, hq, hhead, _, _, _⟩ :=
      built_transaction_postings _ _ _ _ _ _ _ _ hbt
    have hpeq : p = ⟨root, some (q, r.txn_comm)⟩ := by
      have h1 : t.postings.head? = some p := by rw [hp]; rfl
      rw [hhead] at h1
      injection h1 with hx
      exact hx.symm
    have huq : u = (q, r.txn_comm) := by
      rw [hpeq] at hu
      injection hu with hx
      exact hx.symm
    subst huq
    unfold amountAdd at ha
    by_cases hcur : ((q, r.txn_comm) : Dec × List Char).2 = r.account_comm
    · rw [if_pos hcur] at ha
      simp only [Option.some.injEq] at ha
      refine ⟨ts' ++ [t], ⟨st.index, dt + 1, root, a⟩, r, dt, t, q, bb,
        ?_, ?_, hlast, List.getLast?_concat ts', hdt, rfl, rfl, hq, hhead, hbb, hcur, ?_⟩
      · rw [hes, hentries]
      · simp only [List.length_append, List.length_singleton]
        omega
      · rw [← ha]
    · rw [if_neg hcur] at ha
      exact absurd ha (by simp)

/-- C1 counterexample: a file with exactly one processed row (no abort)
yields one Transaction and **no** Balance assertion — the guard
`if index:` is false because `index == 0` after a single iteration,
while the claim promises a Balance for every file with at least one
processed row. -/
theorem one_row_no_balance :
    run1.map (fun r => (r.entries.length, countBals r.entries, r.aborted)) =
      some (1, 0, false) := by decide

/-- Witness for C1's amended theorem: the 3-row all-cache-hit run. -/
theorem extract_appends_balance_witness :
    ∃ res, run3 = some res ∧ res.aborted = false ∧
      2 ≤ ([rowA, rowB, rowC] : List Row).length ∧
      ∃ (ts : List Transaction) (b : Balance) (r : Row) (dt : ℕ)
        (t : Transaction) (q bb : Dec),
        res.entries = List.map Entry.txn ts ++ [Entry.bal b] ∧
        ts.length = ([rowA, rowB, rowC] : List Row).length ∧
        ([rowA, rowB, rowC] : List Row).getLast? = some r ∧
        ts.getLast? = some t ∧
        parseDate r.txn_date = some dt ∧
        b.date = dt + 1 ∧
        b.account = chk ∧
        D r.amount = some q ∧
        t.postings.head? = some ⟨chk, some (q, r.txn_comm)⟩ ∧
        D r.balance_before = some bb ∧
        r.txn_comm = r.account_comm ∧
        b.amt = (decAdd q bb, r.txn_comm) := by
  refine ⟨run3.getD emptyResult, ?_, ?_, ?_, ?_⟩
  · decide
  · decide
  · decide
  · exact extract_appends_balance chk (some cacheSample) [rowA, rowB, rowC] []
      (run3.getD emptyResult) (by decide) (by decide) (by decide)

/-- C2 counterexample: the operator enters `"q"` on row 2 of a 3-row
file.  The claim promises 1 Transaction *plus* a Balance assertion
computed against row 1; the code returns exactly 1 Transaction and **no**
Balance at all — after `index -= 1` the guard `if index:` sees `0`. -/
theorem abort_row2_no_balance :
    run3q.map (fun r => (r.entries.length, countBals r.entries, r.aborted)) =
      some (1, 0, true) := by decide

/-- C2 (amended): on abort when the operator enters `"q"` on row 2 of a
3-row file, `extract` returns exactly 1 Transaction (from row 1) and no
Balance assertion; in general, on abort at row `k+1` (zero-based `k`) the
index is decremented to `k - 1` — the position of the last successfully
built transaction — so a Balance assertion is emitted only when at least
two transactions were built (`k ≥ 2`), and then its posting amount comes
from the last successfully built transaction, while its date and
`balance_before` come from the aborted row. -/
theorem abort_decrements_index (root : List Char) (cf : Option (List CacheEntry))
    (rows : List Row) (inputs : List (List Char)) (res : ExtractResult)
    (he : extract root cf rows inputs = some res)
    (ha : res.aborted = true) :
    (run3q.map (fun r => (r.entries.length, countBals r.entries)) = some (1, 0)) ∧
    ∃ (k : ℕ) (arow : Row) (ts : List Transaction),
      rows[k]? = some arow ∧
      res.lastRow = some arow ∧
      1 ≤ k ∧
      ts.length = k ∧
      res.finalIndex = (k : ℤ) - 1 ∧
      ((k = 1 ∧ res.entries = List.map Entry.txn ts) ∨
       (2 ≤ k ∧ ∃ (b : Balance) (t : Transaction) (p : Posting)
          (u : Dec × List Char) (dt : ℕ) (bb : Dec),
          res.entries = List.map Entry.txn ts ++ [Entry.bal b] ∧
          ts.getLast? = some t ∧
          t.postings.head? = some p ∧
          p.units = some u ∧
          parseDate arow.txn_date = some dt ∧
          b.date = dt + 1 ∧
          D arow.balance_before = some bb ∧
          b.amt = (decAdd u.1 bb, u.2))) := by
  refine ⟨by decide, ?_⟩
  rw [extract_eq] at he
  cases hloop : extractLoop root (loadCacheTable cf).1 rows 0
      ⟨[], false, inputs, [], 0, none, false⟩ with
  | none => rw [hloop] at he; exact absurd he (by simp)
  | some st =>
    rw [hloop] at he
    dsimp only at he
    obtain ⟨es, hbs, hres⟩ := finishExtract_inv _ _ _ _ _ he
    subst hres
    have hab : st.aborted = true := ha
    obtain ⟨k, r, ts, hk, hlr, hidx, hent, hlen⟩ :=
      extractLoop_aborted root (loadCacheTable cf).1 rows 0 _ st rfl hloop hab
    have hentries : st.entries = ts := by simpa using hent
    have hidxE : st.index = (k : ℤ) - 1 := by
      rw [hidx]
      push_cast
      ring
    by_cases hk0 : st.index = 0
    · have hk1 : k = 1 := by
        rw [hidxE] at hk0
        omega
      refine ⟨k, r, ts, hk, hlr, by omega, hlen, hidxE, Or.inl ⟨hk1, ?_⟩⟩
      unfold balanceStep at hbs
      rw [if_neg (by simpa using hk0)] at hbs
      simp only [Option.some.injEq] at hbs
      rw [← hbs, hentries]
    · obtain ⟨row', dt, t, p, ps, u, bb, a, hlr2, hdt, hg, hp, hu, hbb, hadd, hes⟩ :=
        balanceStep_inv root st es hbs hk0
      rw [hlr] at hlr2
      injection hlr2 with hrow
      subst hrow
      have hknz : k ≠ 0 := by
        intro h0
        subst h0
        have hts : ts = [] := List.length_eq_zero.mp hlen
        rw [hentries, hts, hidxE] at hg
        have hnone : pyGet ([] : List Transaction) (((0 : ℕ) : ℤ) - 1) = none := by
          decide
        rw [hnone] at hg
        exact absurd hg (by simp)
      have hk2 : 2 ≤ k := by
        rcases Nat.lt_or_ge k 2 with hlt | hge
        · interval_cases k
          · exact absurd rfl hknz
          · exact absurd (by rw [hidxE]; norm_num) hk0
        · exact hge
      have htl : ts ≠ [] := by
        intro h0
        rw [h0] at hlen
        simp at hlen
        omega
      rw [hidxE] at hg
      have hglast : ts.getLast? = some t := by
        have hx : ((k : ℤ) - 1) = (ts.length : ℤ) - 1 := by
          rw [hlen]
        rw [hentries, hx, pyGet_last ts htl] at hg
        exact hg
      unfold amountAdd at hadd
      by_cases hcur : u.2 = r.account_comm
      · rw [if_pos hcur] at hadd
        simp only [Option.some.injEq] at hadd
        refine ⟨k, r, ts, hk, hlr, by omega, hlen, hidxE,
          Or.inr ⟨hk2, ⟨st.index, dt + 1, root, a⟩, t, p, u, dt, bb,
            ?_, hglast, ?_, hu, hdt, rfl, hbb, ?_⟩⟩
        · rw [hes, hentries]
        · rw [hp]; rfl
        · rw [← hadd]
      · rw [if_neg hcur] at hadd
        exact absurd hadd (by simp)

/-- Witness for C2's amended theorem: a 3-row run aborted on its third
row (rows 1–2 are cache hits, row 3 forces a prompt answered `"q"`), so
two transactions exist and the Balance against the second is emitted. -/
theorem abort_decrements_index_witness :
    ∃ res, extract chk (some cacheSample) [rowA, rowB, rowU] ["q".data] = some res ∧
      res.aborted = true ∧
      ∃ (k : ℕ) (arow : Row) (ts : List Transaction),
        ([rowA, rowB, rowU] : List Row)[k]? = some arow ∧
        res.lastRow = some arow ∧
        1 ≤ k ∧
        ts.length = k ∧
        res.finalIndex = (k : ℤ) - 1 ∧
        ((k = 1 ∧ res.entries = List.map Entry.txn ts) ∨
         (2 ≤ k ∧ ∃ (b : Balance) (t : Transaction) (p : Posting)
            (u : Dec × List Char) (dt : ℕ) (bb : Dec),
            res.entries = List.map Entry.txn ts ++ [Entry.bal b] ∧
            ts.getLast? = some t ∧
            t.postings.head? = some p ∧
            p.units = some u ∧
            parseDate arow.txn_date = some dt ∧
            b.date = dt + 1 ∧
            D arow.balance_before = some bb ∧
            b.amt = (decAdd u.1 bb, u.2))) := by
  refine ⟨(extract chk (some cacheSample) [rowA, rowB, rowU] ["q".data]).getD
    emptyResult, ?_, ?_, ?_⟩
  · decide
  · decide
  · exact (abort_decrements_index chk (some cacheSample) [rowA, rowB, rowU]
      ["q".data] _ (by decide) (by decide)).2

/-! ## Claim C10 — the cache file is written only when needed -/

/-- C10: when no new payee mappings were accumulated during the run
(`new_payees` empty at the end of `extract`), neither the `.old` backup
nor the cache rewrite happens — the on-disk cache file is untouched; the
backup-then-rewrite pair happens exactly when at least one pending entry
exists, and then the written table is the loaded one with the pending
rows appended. -/
theorem cache_flush_frame (root : List Char) (cf : Option (List CacheEntry))
    (rows : List Row) (inputs : List (List Char)) (res : ExtractResult)
    (he : extract root cf rows inputs = some res) :
    (res.pending = [] → res.wroteBackup = false ∧ res.cacheWrite = none) ∧
    (res.pending ≠ [] → res.wroteBackup = true ∧
      res.cacheWrite =
        some ((loadCacheTable cf).1 ++ res.pending.map fun kv => ⟨kv.1, kv.2, []⟩)) := by
  rw [extract_eq] at he
  cases hloop : extractLoop root (loadCacheTable cf).1 rows 0
      ⟨[], false, inputs, [], 0, none, false⟩ with
  | none => rw [hloop] at he; exact absurd he (by simp)
  | some st =>
    rw [hloop] at he
    dsimp only at he
    obtain ⟨es, hbs, hres⟩ := finishExtract_inv _ _ _ _ _ he
    subst hres
    constructor
    · intro hp
      have hp2 : st.pending = [] := hp
      constructor
      · show (decide (st.pending ≠ [])) = false
        simp [hp2]
      · show (if st.pending = [] then none else _) = none
        rw [if_pos hp2]
    · intro hp
      have hp2 : st.pending ≠ [] := hp
      constructor
      · show (decide (st.pending ≠ [])) = true
        simp [hp2]
      · show (if st.pending = [] then none else
            some ((loadCacheTable cf).1 ++ st.pending.map fun kv => ⟨kv.1, kv.2, []⟩)) = _
        rw [if_neg hp2]

/-- Witness for C10, both branches: the all-cache-hit 3-row run leaves
the cache file untouched; a run that teaches one new payee (`NL99 ->
Carol`) writes the backup and appends exactly that row. -/
theorem cache_flush_frame_witness :
    ∃ res res2,
      run3 = some res ∧
      res.pending = [] ∧ res.wroteBackup = false ∧ res.cacheWrite = none ∧
      extract chk (some cacheSample) [rowA, rowU] ["Carol".data] = some res2 ∧
      res2.pending ≠ [] ∧ res2.wroteBackup = true ∧
      res2.cacheWrite = some (cacheSample ++ [⟨"NL99".data, "Carol".data, []⟩]) := by
  refine ⟨run3.getD emptyResult,
    (extract chk (some cacheSample) [rowA, rowU] ["Carol".data]).getD emptyResult,
    ?_, ?_, ?_, ?_, ?_, ?_, ?_, ?_⟩
  · decide
  · decide
  · exact ((cache_flush_frame chk (some cacheSample) [rowA, rowB, rowC] [] _
      (by decide)).1 (by decide)).1
  · exact ((cache_flush_frame chk (some cacheSample) [rowA, rowB, rowC] [] _
      (by decide)).1 (by decide)).2
  · decide
  · decide
  · exact ((cache_flush_frame chk (some cacheSample) [rowA, rowU] ["Carol".data] _
      (by decide)).2 (by decide)).1
  · exact ((cache_flush_frame chk (some cacheSample) [rowA, rowU] ["Carol".data] _
      (by decide)).2 (by decide)).2
